import Mathlib

/-!
Verification of the smart-date library (src/lib.rs, src/parser.rs, src/parsed.rs).

The embedding models Rust strings as `List Char`.  All inputs the claims are
about are ASCII, where Rust byte offsets coincide with character counts and
Rust `str::to_lowercase` acts character by character, so string lowercasing is
modelled as `List.map lowerChar` with `lowerChar` the ASCII lowercase map.
`nom` parsers of type `IResult<&str, T>` are modelled as
`List Char → Option (List Char × T)` returning `(remainder, value)` on
success, `none` on error.
-/

namespace SmartDate

/-- Weekday enumeration from src/lib.rs. -/
inductive Weekday where
  | Monday
  | Tuesday
  | Wednesday
  | Thursday
  | Friday
  | Saturday
  | Sunday
deriving DecidableEq, Repr

/-- FlexibleDate enumeration from src/lib.rs. -/
inductive FlexibleDate where
  | Today
  | Tomorrow
  | Weekday (day : SmartDate.Weekday)
deriving DecidableEq, Repr

/-- `Parsed` struct from src/parsed.rs; the Rust `range: Range<usize>`
is modelled by its two endpoints `start` and `stop`. -/
structure Parsed (T : Type) where
  data : T
  start : Nat
  stop : Nat
deriving DecidableEq, Repr

/-- The character class used by `nom::character::complete::space1` and by
`is_not(" \t")` in src/parser.rs: a space or a tab. -/
def spaceTab (c : Char) : Bool := c = ' ' || c = '\t'

/-- Model of Rust `char::is_whitespace`: the Unicode White_Space property
(U+0009..U+000D, U+0020, U+0085, U+00A0, U+1680, U+2000..U+200A, U+2028,
U+2029, U+202F, U+205F, U+3000). -/
def isRustWhitespace (c : Char) : Bool :=
  (9 ≤ c.toNat && c.toNat ≤ 13) || c.toNat = 32 || c.toNat = 133 ||
  c.toNat = 160 || c.toNat = 5760 || (8192 ≤ c.toNat && c.toNat ≤ 8202) ||
  c.toNat = 8232 || c.toNat = 8233 || c.toNat = 8239 || c.toNat = 8287 ||
  c.toNat = 12288

/-- ASCII lowercasing of one character, the per-character action of Rust
`str::to_lowercase` on ASCII text. -/
def lowerChar (c : Char) : Char :=
  if 65 ≤ c.toNat && c.toNat ≤ 90 then Char.ofNat (c.toNat + 32) else c

/-- A character list of ASCII characters only; the claims about offsets and
case restrict their inputs to ASCII. -/
def allASCII (s : List Char) : Prop := ∀ c ∈ s, c.toNat < 128

/-- `not_whitespace` from src/parser.rs: `is_not(" \t")`, consuming the
maximal nonempty run of characters that are not a space or tab. -/
def not_whitespace (input : List Char) : Option (List Char × List Char) :=
  let token := input.takeWhile fun c => !(spaceTab c)
  if token = [] then none
  else some (input.dropWhile (fun c => !(spaceTab c)), token)

/-- `nom::character::complete::space1`: the maximal nonempty run of spaces
and tabs. -/
def space1 (input : List Char) : Option (List Char × List Char) :=
  let sp := input.takeWhile spaceTab
  if sp = [] then none
  else some (input.dropWhile spaceTab, sp)

/-- `nom::bytes::complete::tag lit`: consume the literal `lit` from the front
of the input, returning the remainder; fail if `lit` is not a prefix. -/
def tag : List Char → List Char → Option (List Char)
  | [], input => some input
  | _ :: _, [] => none
  | c :: cs, x :: xs => if c = x then tag cs xs else none

/-- `value(v, alt((tag l1, tag l2, ...)))` generalised to a table: try each
(literal, value) pair in order, returning the remainder and the value of the
first literal that is a prefix of the input. -/
def alt_table (table : List (List Char × FlexibleDate)) (input : List Char) :
    Option (List Char × FlexibleDate) :=
  match table with
  | [] => none
  | (lit, v) :: rest =>
    match tag lit input with
    | some rem => some (rem, v)
    | none => alt_table rest input

/-- The literal table of `parse_today` in src/parser.rs. -/
def today_table : List (List Char × FlexibleDate) :=
  [(("today").toList, .Today), (("tod").toList, .Today)]

/-- The literal table of `parse_tomorrow` in src/parser.rs. -/
def tomorrow_table : List (List Char × FlexibleDate) :=
  [(("tomorrow").toList, .Tomorrow), (("tom").toList, .Tomorrow),
   (("tmrw").toList, .Tomorrow)]

/-- The literal table of `parse_weekday` in src/parser.rs, in source order. -/
def weekday_table : List (List Char × FlexibleDate) :=
  [(("sunday").toList, .Weekday .Sunday), (("sun").toList, .Weekday .Sunday),
   (("monday").toList, .Weekday .Monday), (("mon").toList, .Weekday .Monday),
   (("tuesday").toList, .Weekday .Tuesday), (("tue").toList, .Weekday .Tuesday),
   (("wednesday").toList, .Weekday .Wednesday), (("wed").toList, .Weekday .Wednesday),
   (("thursday").toList, .Weekday .Thursday), (("thurs").toList, .Weekday .Thursday),
   (("friday").toList, .Weekday .Friday), (("fri").toList, .Weekday .Friday),
   (("saturday").toList, .Weekday .Saturday), (("sat").toList, .Weekday .Saturday)]

/-- `parse_today` from src/parser.rs. -/
def parse_today (input : List Char) : Option (List Char × FlexibleDate) :=
  alt_table today_table input

/-- `parse_tomorrow` from src/parser.rs. -/
def parse_tomorrow (input : List Char) : Option (List Char × FlexibleDate) :=
  alt_table tomorrow_table input

/-- `parse_weekday` from src/parser.rs. -/
def parse_weekday (input : List Char) : Option (List Char × FlexibleDate) :=
  alt_table weekday_table input

/-- `parse_flex_date_exact` from src/parser.rs:
`alt((parse_today, parse_tomorrow, parse_weekday))`.  NOTE (from the source):
it expects its input to have been converted to lower case. -/
def parse_flex_date_exact (input : List Char) :
    Option (List Char × FlexibleDate) :=
  match parse_today input with
  | some r => some r
  | none =>
    match parse_tomorrow input with
    | some r => some r
    | none => parse_weekday input

/-- The full recognised-literal table, i.e. the alternatives of
`parse_flex_date_exact` flattened in the order the source tries them. -/
def literal_table : List (List Char × FlexibleDate) :=
  today_table ++ tomorrow_table ++ weekday_table

/-- `parse_flex_date_with_suffix` from src/parser.rs: parse a date at the
front, then require the remainder to be empty or begin with a whitespace
character (Rust `char::is_whitespace`). -/
def parse_flex_date_with_suffix (input : List Char) :
    Option (List Char × FlexibleDate) :=
  match parse_flex_date_exact input with
  | none => none
  | some (remainder, date) =>
    if remainder.isEmpty || remainder.head?.any isRustWhitespace then
      some (remainder, date)
    else none

/-- The token-skipping loop of `parse_flex_date` in src/parser.rs, with the
loop expressed as recursion on a fuel argument.  The Rust loop runs while
`parse_flex_date_with_suffix` fails and the input is nonempty, eating one
`(not_whitespace, space1)` group per iteration (returning `None` if that
fails); afterwards `parse_flex_date_exact` builds the result.  Each iteration
consumes at least two characters, so fuel `input.length + 1` never runs out. -/
def parse_flex_date_go : Nat → List Char → Nat → Option (Parsed FlexibleDate)
  | 0, _, _ => none
  | fuel + 1, input, offset =>
    if (parse_flex_date_with_suffix input).isSome || input.isEmpty then
      match parse_flex_date_exact input with
      | none => none
      | some (remainder, date) =>
        some ⟨date, offset, offset + input.length - remainder.length⟩
    else
      match not_whitespace input with
      | none => none
      | some (rem1, token) =>
        match space1 rem1 with
        | none => none
        | some (rem2, sp) =>
          parse_flex_date_go fuel rem2 (offset + token.length + sp.length)

/-- `parse_flex_date` from src/parser.rs: lowercase the whole input once,
then run the token-skipping loop from offset 0. -/
def parse_flex_date (input : List Char) : Option (Parsed FlexibleDate) :=
  let lowered := input.map lowerChar
  parse_flex_date_go (lowered.length + 1) lowered 0

/-- `FlexibleDate::parse_from_str` from src/lib.rs: run
`parse_flex_date_exact` on the raw input and discard the remainder. -/
def parse_from_str (text : List Char) : Option FlexibleDate :=
  (parse_flex_date_exact text).map fun r => r.2

/-- `FlexibleDate::find_and_parse_in_str` from src/lib.rs. -/
def find_and_parse_in_str (text : List Char) : Option (Parsed FlexibleDate) :=
  parse_flex_date text

/-- `Weekday::week_index` from src/lib.rs. -/
def Weekday.week_index : Weekday → Nat
  | .Monday => 0
  | .Tuesday => 1
  | .Wednesday => 2
  | .Thursday => 3
  | .Friday => 4
  | .Saturday => 5
  | .Sunday => 6

/-- `Weekday::days_until` from src/lib.rs; the `u64` values involved are far
from the wrap boundary, so `u64` arithmetic is modelled by `Nat` arithmetic
(truncated subtraction matches wrapped subtraction exactly when the
subtraction does not underflow, which claim C8 establishes). -/
def Weekday.days_until (self day : Weekday) : Nat :=
  let day_index := day.week_index
  let self_index := self.week_index
  if day_index ≥ self_index then day_index - self_index
  else 7 + day_index - self_index

/-- Modelled from the spec: the external day-arithmetic collaborator
(`chrono::NaiveDate`) is modelled by the absolute day number of a calendar
date (days since 1970-01-01, negative before), so that the collaborator
operation `add_days(date, n)` (`date + Days::new(n)`) is plain addition.
`civilToDays y m d` is the proleptic-Gregorian day number of the date
y-m-d (standard civil-from-days inverse, for years `y ≥ 1`, months 1..12,
days 1..31). -/
def civilToDays (y m d : Nat) : Int :=
  let yAdj := if m ≤ 2 then y - 1 else y
  let era := yAdj / 400
  let yoe := yAdj - era * 400
  let mp := (m + 9) % 12
  let doy := (153 * mp + 2) / 5 + d - 1
  let doe := yoe * 365 + yoe / 4 - yoe / 100 + doy
  ((era * 146097 + doe : Nat) : Int) - 719468

/-- Modelled from the spec: the calendar weekday accessor `weekday_of(date)`
(`chrono::Datelike::weekday` composed with `From<ChronoWeekday> for Weekday`
from src/lib.rs), on the day-number model of dates.  Day 0 (1970-01-01) was a
Thursday. -/
def weekdayOfDay (z : Int) : Weekday :=
  match ((z + 4).emod 7).toNat with
  | 0 => .Sunday
  | 1 => .Monday
  | 2 => .Tuesday
  | 3 => .Wednesday
  | 4 => .Thursday
  | 5 => .Friday
  | _ => .Saturday

/-- `FlexibleDate::into_naive_date` from src/lib.rs, on the day-number model
of `chrono::NaiveDate`. -/
def into_naive_date (self : FlexibleDate) (today : Int) : Int :=
  match self with
  | .Today => today
  | .Tomorrow => today + 1
  | .Weekday day => today + (Weekday.days_until (weekdayOfDay today) day : Int)

/-- The text made of a list of (token, spaces) groups followed by `rest`;
used to describe inputs on which the token-skipping loop of
`parse_flex_date` walks group by group. -/
def chunksText (chunks : List (List Char × List Char)) (rest : List Char) :
    List Char :=
  chunks.foldr (fun p acc => p.1 ++ p.2 ++ acc) rest

/-- Total length of a list of (token, spaces) groups: the offset the scanner
has advanced by after skipping them. -/
def skipLen (chunks : List (List Char × List Char)) : Nat :=
  chunks.foldr (fun p acc => p.1.length + p.2.length + acc) 0

theorem toNat_ofNatAux (n : Nat) (h : n.isValidChar) :
    (Char.ofNatAux n h).toNat = n := by
  unfold Char.ofNatAux Char.toNat
  simp [UInt32.toNat]

theorem toNat_ofNat_valid (n : Nat) (h : n.isValidChar) :
    (Char.ofNat n).toNat = n := by
  rw [Char.ofNat, dif_pos h]
  exact toNat_ofNatAux n h

theorem lowerChar_toNat (c : Char) :
    (lowerChar c).toNat =
      if 65 ≤ c.toNat ∧ c.toNat ≤ 90 then c.toNat + 32 else c.toNat := by
  unfold lowerChar
  by_cases h : 65 ≤ c.toNat ∧ c.toNat ≤ 90
  · have hb : (65 ≤ c.toNat && c.toNat ≤ 90) = true := by
      simp [Bool.and_eq_true, decide_eq_true_eq, h.1, h.2]
    rw [if_pos hb, if_pos h]
    exact toNat_ofNat_valid (c.toNat + 32) (Or.inl (by omega))
  · have hb : (65 ≤ c.toNat && c.toNat ≤ 90) = false := by
      rw [Bool.and_eq_false_iff]
      rcases Decidable.not_and_iff_or_not.mp h with h1 | h1
      · exact Or.inl (by simpa using h1)
      · exact Or.inr (by simpa using h1)
    rw [if_neg (by rw [hb]; exact Bool.false_ne_true), if_neg h]

theorem lowerChar_eq_self (c : Char) (h : ¬(65 ≤ c.toNat ∧ c.toNat ≤ 90)) :
    lowerChar c = c := by
  unfold lowerChar
  rw [if_neg]
  rw [show (65 ≤ c.toNat && c.toNat ≤ 90) = false by
    rw [Bool.and_eq_false_iff]
    rcases Decidable.not_and_iff_or_not.mp h with h1 | h1
    · exact Or.inl (by simpa using h1)
    · exact Or.inr (by simpa using h1)]
  exact Bool.false_ne_true

theorem lowerChar_idem (c : Char) : lowerChar (lowerChar c) = lowerChar c := by
  by_cases h : 65 ≤ c.toNat ∧ c.toNat ≤ 90
  · refine lowerChar_eq_self (lowerChar c) ?_
    rw [lowerChar_toNat, if_pos h]
    omega
  · rw [lowerChar_eq_self c h]
    exact lowerChar_eq_self c h

theorem map_lowerChar_idem (l : List Char) :
    (l.map lowerChar).map lowerChar = l.map lowerChar := by
  rw [List.map_map]
  exact List.map_congr_left fun c _ => lowerChar_idem c

theorem lowerChar_of_whitespace (c : Char) (h : isRustWhitespace c = true) :
    lowerChar c = c := by
  refine lowerChar_eq_self c ?_
  unfold isRustWhitespace at h
  simp only [Bool.or_eq_true, Bool.and_eq_true, decide_eq_true_eq] at h
  omega

theorem tag_some_iff (lit input rem : List Char) :
    tag lit input = some rem ↔ input = lit ++ rem := by
  induction lit generalizing input with
  | nil => simp [tag]
  | cons c cs ih =>
    cases input with
    | nil => simp [tag]
    | cons x xs =>
      simp only [tag, List.cons_append, List.cons.injEq]
      by_cases h : c = x
      · subst h
        simp [ih]
      · rw [if_neg h]
        exact iff_of_false (by simp) fun hc => h hc.1.symm

theorem alt_table_some (tbl : List (List Char × FlexibleDate))
    (input rem : List Char) (d : FlexibleDate)
    (h : alt_table tbl input = some (rem, d)) :
    ∃ lit, (lit, d) ∈ tbl ∧ input = lit ++ rem := by
  induction tbl with
  | nil => simp [alt_table] at h
  | cons p rest ih =>
    obtain ⟨lit0, v0⟩ := p
    simp only [alt_table] at h
    cases htag : tag lit0 input with
    | some r =>
      rw [htag] at h
      simp only [Option.some.injEq, Prod.mk.injEq] at h
      obtain ⟨h1, h2⟩ := h
      subst h1
      subst h2
      exact ⟨lit0, List.mem_cons_self _ _,
        (tag_some_iff lit0 input r).mp htag⟩
    | none =>
      rw [htag] at h
      obtain ⟨lit, hm, he⟩ := ih h
      exact ⟨lit, List.mem_cons_of_mem _ hm, he⟩

theorem alt_table_append (t1 t2 : List (List Char × FlexibleDate))
    (input : List Char) :
    alt_table (t1 ++ t2) input =
      match alt_table t1 input with
      | some r => some r
      | none => alt_table t2 input := by
  induction t1 with
  | nil => simp [alt_table]
  | cons p rest ih =>
    obtain ⟨lit, v⟩ := p
    simp only [List.cons_append, alt_table]
    cases tag lit input <;> simp [ih]

theorem parse_flex_date_exact_eq_table (input : List Char) :
    parse_flex_date_exact input = alt_table literal_table input := by
  unfold parse_flex_date_exact parse_today parse_tomorrow parse_weekday
    literal_table
  rw [alt_table_append, alt_table_append]
  cases alt_table today_table input <;>
    cases alt_table tomorrow_table input <;> rfl

theorem exact_some_decomp (input rem : List Char) (d : FlexibleDate)
    (h : parse_flex_date_exact input = some (rem, d)) :
    ∃ lit, (lit, d) ∈ literal_table ∧ input = lit ++ rem := by
  rw [parse_flex_date_exact_eq_table] at h
  exact alt_table_some literal_table input rem d h

theorem literal_table_heads : ∀ p ∈ literal_table,
    p.1 ≠ [] ∧ spaceTab (p.1.headD ' ') = false
      ∧ isRustWhitespace (p.1.headD ' ') = false := by
  decide

theorem exact_some_head (input rem : List Char) (d : FlexibleDate)
    (h : parse_flex_date_exact input = some (rem, d)) :
    ∃ c cs, input = c :: cs ∧ spaceTab c = false
      ∧ isRustWhitespace c = false := by
  obtain ⟨lit, hm, he⟩ := exact_some_decomp input rem d h
  have hf := literal_table_heads (lit, d) hm
  cases lit with
  | nil => exact absurd rfl hf.1
  | cons c cs =>
    exact ⟨c, cs ++ rem, by simpa using he, hf.2.1, hf.2.2⟩

theorem with_suffix_some_elim (input rem : List Char) (d : FlexibleDate)
    (h : parse_flex_date_with_suffix input = some (rem, d)) :
    parse_flex_date_exact input = some (rem, d)
      ∧ (rem.isEmpty || rem.head?.any isRustWhitespace) = true := by
  unfold parse_flex_date_with_suffix at h
  split at h
  · exact absurd h (by simp)
  · rename_i remainder date heq
    split at h
    · rename_i hc
      simp only [Option.some.injEq, Prod.mk.injEq] at h
      obtain ⟨h1, h2⟩ := h
      subst h1
      subst h2
      exact ⟨heq, hc⟩
    · exact absurd h (by simp)

theorem with_suffix_intro (input rem : List Char) (d : FlexibleDate)
    (he : parse_flex_date_exact input = some (rem, d))
    (hc : (rem.isEmpty || rem.head?.any isRustWhitespace) = true) :
    parse_flex_date_with_suffix input = some (rem, d) := by
  unfold parse_flex_date_with_suffix
  rw [he]
  simp [hc]

theorem takeWhile_append_all (p : Char → Bool) (l1 l2 : List Char)
    (h1 : ∀ c ∈ l1, p c = true)
    (h2 : l2 = [] ∨ p (l2.headD ' ') = false) :
    (l1 ++ l2).takeWhile p = l1 ∧ (l1 ++ l2).dropWhile p = l2 := by
  induction l1 with
  | nil =>
    simp only [List.nil_append]
    cases l2 with
    | nil => simp
    | cons c cs =>
      rcases h2 with h2 | h2
      · exact absurd h2 (by simp)
      · simp only [List.headD_cons] at h2
        constructor
        · simp [List.takeWhile_cons, h2]
        · simp [List.dropWhile_cons, h2]
  | cons a l1 ih =>
    have ha : p a = true := h1 a (List.mem_cons_self a l1)
    have ih2 := ih fun c hc => h1 c (List.mem_cons_of_mem a hc)
    constructor
    · simp [List.cons_append, List.takeWhile_cons, ha, ih2.1]
    · simp [List.cons_append, List.dropWhile_cons, ha, ih2.2]

theorem not_whitespace_some (input rem tok : List Char)
    (h : not_whitespace input = some (rem, tok)) :
    tok = input.takeWhile (fun c => !(spaceTab c))
    ∧ rem = input.dropWhile (fun c => !(spaceTab c)) ∧ tok ≠ [] := by
  simp only [not_whitespace] at h
  split at h
  · exact absurd h (by simp)
  · rename_i hne
    simp only [Option.some.injEq, Prod.mk.injEq] at h
    exact ⟨h.2.symm, h.1.symm, h.2 ▸ hne⟩

theorem space1_some (input rem sp : List Char)
    (h : space1 input = some (rem, sp)) :
    sp = input.takeWhile spaceTab
    ∧ rem = input.dropWhile spaceTab ∧ sp ≠ [] := by
  simp only [space1] at h
  split at h
  · exact absurd h (by simp)
  · rename_i hne
    simp only [Option.some.injEq, Prod.mk.injEq] at h
    exact ⟨h.2.symm, h.1.symm, h.2 ▸ hne⟩

theorem not_whitespace_token (t rest : List Char)
    (ht : t ≠ []) (hall : ∀ c ∈ t, spaceTab c = false)
    (hrest : rest = [] ∨ spaceTab (rest.headD ' ') = true) :
    not_whitespace (t ++ rest) = some (rest, t) := by
  have h := takeWhile_append_all (fun c => !(spaceTab c)) t rest
    (fun c hc => by simp [hall c hc])
    (by rcases hrest with h2 | h2
        · exact Or.inl h2
        · exact Or.inr (by simpa using h2))
  unfold not_whitespace
  rw [h.1, h.2, if_neg ht]

theorem space1_run (sp rest : List Char)
    (hsp : sp ≠ []) (hall : ∀ c ∈ sp, spaceTab c = true)
    (hrest : rest = [] ∨ spaceTab (rest.headD ' ') = false) :
    space1 (sp ++ rest) = some (rest, sp) := by
  have h := takeWhile_append_all spaceTab sp rest hall hrest
  unfold space1
  rw [h.1, h.2, if_neg hsp]

theorem go_some (fuel : Nat) (input : List Char) (offset : Nat)
    (p : Parsed FlexibleDate)
    (h : parse_flex_date_go fuel input offset = some p) :
    offset ≤ p.start
    ∧ ∃ lit rem, (lit, p.data) ∈ literal_table
        ∧ p.stop = p.start + lit.length
        ∧ input.drop (p.start - offset) = lit ++ rem
        ∧ p.stop ≤ offset + input.length := by
  induction fuel generalizing input offset with
  | zero => exact absurd h (by simp [parse_flex_date_go])
  | succ fuel ih =>
    unfold parse_flex_date_go at h
    split at h
    · split at h
      · exact absurd h (by simp)
      · rename_i remainder date heq
        simp only [Option.some.injEq] at h
        subst h
        obtain ⟨lit, hm, hdec⟩ := exact_some_decomp input remainder date heq
        have hlen : input.length = lit.length + remainder.length := by
          rw [hdec, List.length_append]
        refine ⟨le_refl _, lit, remainder, hm,
          show offset + input.length - remainder.length = offset + lit.length
            by omega,
          ?_,
          show offset + input.length - remainder.length ≤ offset + input.length
            by omega⟩
        show input.drop (offset - offset) = lit ++ remainder
        rw [Nat.sub_self, List.drop_zero]
        exact hdec
    · split at h
      · exact absurd h (by simp)
      · rename_i rem1 token hnw
        split at h
        · exact absurd h (by simp)
        · rename_i rem2 sp hsp
          have hrec := ih rem2 (offset + token.length + sp.length) h
          obtain ⟨hstart, lit, rem, hm, hstop, hdrop, hbound⟩ := hrec
          obtain ⟨htok, hrem1, htokne⟩ := not_whitespace_some input rem1 token hnw
          obtain ⟨hsp1, hrem2, hspne⟩ := space1_some rem1 rem2 sp hsp
          have hin : token ++ rem1 = input := by
            rw [htok, hrem1]
            exact List.takeWhile_append_dropWhile _ input
          have hr1 : sp ++ rem2 = rem1 := by
            rw [hsp1, hrem2]
            exact List.takeWhile_append_dropWhile _ rem1
          have hlen1 : input.length = token.length + rem1.length := by
            rw [← hin, List.length_append]
          have hlen2 : rem1.length = sp.length + rem2.length := by
            rw [← hr1, List.length_append]
          have hk : input.drop (token.length + sp.length) = rem2 := by
            have : (token ++ sp).length = token.length + sp.length :=
              List.length_append _ _
            rw [← hin, ← hr1, ← List.append_assoc, ← this, List.drop_left]
          refine ⟨by omega, lit, rem, hm, hstop, ?_, by omega⟩
          have harith : p.start - offset
              = (token.length + sp.length)
                + (p.start - (offset + token.length + sp.length)) := by
            omega
          rw [harith, ← List.drop_drop, hk]
          exact hdrop

theorem go_chunks (chunks : List (List Char × List Char)) (fuel offset : Nat)
    (R rem : List Char) (d : FlexibleDate)
    (hfuel : (chunksText chunks R).length < fuel)
    (hchunks : ∀ p ∈ chunks, p.1 ≠ [] ∧ (∀ c ∈ p.1, spaceTab c = false)
        ∧ p.2 ≠ [] ∧ (∀ c ∈ p.2, spaceTab c = true))
    (hfirst : ∀ i < chunks.length,
        parse_flex_date_with_suffix (chunksText (chunks.drop i) R) = none)
    (hR : parse_flex_date_with_suffix R = some (rem, d)) :
    parse_flex_date_go fuel (chunksText chunks R) offset
      = some ⟨d, offset + skipLen chunks,
              offset + skipLen chunks + (R.length - rem.length)⟩ := by
  induction chunks generalizing fuel offset with
  | nil =>
    cases fuel with
    | zero => exact absurd hfuel (Nat.not_lt_zero _)
    | succ fuel =>
      have he := (with_suffix_some_elim R rem d hR).1
      obtain ⟨lit, _, hdec⟩ := exact_some_decomp R rem d he
      have hlen : R.length = lit.length + rem.length := by
        rw [hdec, List.length_append]
      have hCT : chunksText [] R = R := rfl
      unfold parse_flex_date_go
      rw [hCT, hR, he]
      simp only [Option.isSome_some, Bool.true_or, if_true, Option.some.injEq]
      have h0 : skipLen ([] : List (List Char × List Char)) = 0 := rfl
      rw [h0]
      simp only [Parsed.mk.injEq, true_and]
      omega
  | cons chunk rest ih =>
    obtain ⟨t, sp⟩ := chunk
    obtain ⟨htne, htall, hspne, hspall⟩ :=
      hchunks (t, sp) (List.mem_cons_self _ _)
    have hCT : chunksText ((t, sp) :: rest) R
        = t ++ (sp ++ chunksText rest R) := by
      simp [chunksText]
    cases fuel with
    | zero => exact absurd hfuel (Nat.not_lt_zero _)
    | succ fuel =>
      have hws : parse_flex_date_with_suffix (chunksText ((t, sp) :: rest) R)
          = none := hfirst 0 (by simp)
      have hX : chunksText rest R = []
          ∨ spaceTab ((chunksText rest R).headD ' ') = false := by
        cases rest with
        | nil =>
          right
          obtain ⟨c, cs, hRc, hcs, _⟩ :=
            exact_some_head R rem d (with_suffix_some_elim R rem d hR).1
          have : chunksText [] R = R := rfl
          rw [this, hRc]
          simpa using hcs
        | cons q qrest =>
          right
          obtain ⟨tq, spq⟩ := q
          obtain ⟨hqne, hqall, _, _⟩ := hchunks (tq, spq)
            (List.mem_cons_of_mem _ (List.mem_cons_self _ _))
          have hq : chunksText ((tq, spq) :: qrest) R
              = tq ++ (spq ++ chunksText qrest R) := by
            simp [chunksText]
          rw [hq]
          cases tq with
          | nil => exact absurd rfl hqne
          | cons a as =>
            simpa using hqall a (List.mem_cons_self _ _)
      have hnw := not_whitespace_token t (sp ++ chunksText rest R) htne htall
        (by right
            cases sp with
            | nil => exact absurd rfl hspne
            | cons a as => simpa using hspall a (List.mem_cons_self _ _))
      have hs1 := space1_run sp (chunksText rest R) hspne hspall hX
      have hlent : 0 < t.length := List.length_pos.mpr htne
      have hlensp : 0 < sp.length := List.length_pos.mpr hspne
      have hlen : (chunksText ((t, sp) :: rest) R).length
          = t.length + sp.length + (chunksText rest R).length := by
        rw [hCT]
        simp [List.length_append]
        omega
      have hempty : (chunksText ((t, sp) :: rest) R).isEmpty = false := by
        rw [hCT]
        cases t with
        | nil => exact absurd rfl htne
        | cons a as => simp
      have IH := ih fuel (offset + (t.length + sp.length)) (by omega)
        (fun p hp => hchunks p (List.mem_cons_of_mem _ hp))
        (fun i hi => by
          have := hfirst (i + 1) (by simpa using Nat.succ_lt_succ hi)
          simpa using this)
      unfold parse_flex_date_go
      rw [hws]
      simp only [Option.isSome_none, Bool.false_or, hempty, Bool.false_eq_true,
        if_false]
      rw [hCT]
      simp only [hnw, hs1]
      have harr : offset + t.length + sp.length
          = offset + (t.length + sp.length) := by omega
      rw [harr, IH]
      have hskip : skipLen ((t, sp) :: rest)
          = t.length + sp.length + skipLen rest := by
        simp [skipLen]
      simp only [Option.some.injEq, Parsed.mk.injEq, true_and, hskip]
      omega

theorem go_all_ws (fuel : Nat) (input : List Char) (offset : Nat)
    (hws : ∀ c ∈ input, isRustWhitespace c = true) :
    parse_flex_date_go fuel input offset = none := by
  induction fuel generalizing input offset with
  | zero => simp [parse_flex_date_go]
  | succ fuel ih =>
    have hexact : parse_flex_date_exact input = none := by
      cases he : parse_flex_date_exact input with
      | none => rfl
      | some pr =>
        obtain ⟨r, dd⟩ := pr
        obtain ⟨c, cs, hc, _, hcw⟩ := exact_some_head input r dd he
        rw [hc] at hws
        have := hws c (List.mem_cons_self _ _)
        rw [hcw] at this
        exact absurd this Bool.false_ne_true
    have hsuf : parse_flex_date_with_suffix input = none := by
      unfold parse_flex_date_with_suffix
      rw [hexact]
    unfold parse_flex_date_go
    rw [hsuf]
    simp only [Option.isSome_none, Bool.false_or]
    cases input with
    | nil => simp [hexact]
    | cons c cs =>
      simp only [List.isEmpty_cons, Bool.false_eq_true, if_false]
      by_cases hsc : spaceTab c = true
      · have hnone : not_whitespace (c :: cs) = none := by
          unfold not_whitespace
          rw [if_pos (by simp [List.takeWhile_cons, hsc])]
        simp [hnone]
      · cases hnw : not_whitespace (c :: cs) with
        | none => simp [hnw]
        | some pr =>
          obtain ⟨rem1, token⟩ := pr
          obtain ⟨_, hrem1, _⟩ := not_whitespace_some _ _ _ hnw
          have hrem1ws : ∀ x ∈ rem1, isRustWhitespace x = true := by
            intro x hx
            rw [hrem1] at hx
            exact hws x (List.Sublist.mem hx (List.dropWhile_sublist _))
          cases hs1 : space1 rem1 with
          | none => simp [hnw, hs1]
          | some pr2 =>
            obtain ⟨rem2, sp⟩ := pr2
            obtain ⟨_, hrem2, _⟩ := space1_some _ _ _ hs1
            have hrem2ws : ∀ x ∈ rem2, isRustWhitespace x = true := by
              intro x hx
              rw [hrem2] at hx
              exact hrem1ws x (List.Sublist.mem hx (List.dropWhile_sublist _))
            simp only [hnw, hs1]
            exact ih rem2 _ hrem2ws

theorem days_until_self (w : Weekday) : Weekday.days_until w w = 0 := by
  cases w <;> rfl

/-- Claim C1 (code bug): the claim says parse_exact succeeds only when the
entire trimmed input is exactly one recognized phrase, so that
parse_exact of the string starting with the characters of the word today and
ending with an exclamation mark fails.  The code instead discards the
remainder after the matched literal: parse_from_str accepts any input that
merely begins with a recognized literal, so it returns the value Today on
that input, and (since it also performs no trimming and no lowercasing) it
fails on a leading space.  This theorem evaluates the code at the failing
inputs. -/
theorem C1_parse_from_str_ignores_remainder :
    parse_from_str (("today!").toList) = some .Today
    ∧ parse_from_str (("tod").toList) = some .Today
    ∧ parse_from_str ((" today").toList) = none := by
  decide

/-- Claim C2, counterexample: the claim states that, for every string s,
parse_exact(s).is_some() holds exactly when find_and_parse(s) returns a match
spanning all of s.  It fails in both directions: the all-uppercase spelling
of the word today is found by find_and_parse (which lowercases) with a range
spanning the whole five-character input while parse_exact (which does not
lowercase) fails on it; and the word today followed by an extra letter y is
accepted by parse_exact (a bare prefix match) while find_and_parse rejects
it. -/
theorem C2_counterexample :
    (parse_from_str (("TODAY").toList) = none
      ∧ parse_flex_date (("TODAY").toList) = some ⟨.Today, 0, 5⟩)
    ∧ (parse_from_str (("todayy").toList) = some .Today
      ∧ parse_flex_date (("todayy").toList) = none) := by
  decide

/-- Claim C2, amended: for every string s and value d, find_and_parse(s)
returns a match with value d whose range spans all of s exactly when the
recognizer parse_flex_date_exact, applied to the lowercased s, succeeds with
value d consuming the entire string.  (parse_exact itself neither lowercases
its input nor requires the whole string to be consumed, so the equivalence
claimed for it fails; this is the nearby statement that holds.) -/
theorem C2_span_iff_exact_consumes_all (s : List Char) (d : FlexibleDate) :
    parse_flex_date s = some ⟨d, 0, s.length⟩
    ↔ parse_flex_date_exact (s.map lowerChar) = some ([], d) := by
  constructor
  · intro h
    simp only [parse_flex_date] at h
    unfold parse_flex_date_go at h
    split at h
    · split at h
      · exact absurd h (by simp)
      · rename_i remainder date heq
        simp only [Option.some.injEq, Parsed.mk.injEq] at h
        obtain ⟨hd, _, hstop⟩ := h
        obtain ⟨lit, _, hdec⟩ :=
          exact_some_decomp (s.map lowerChar) remainder date heq
        have hlen : (s.map lowerChar).length
            = lit.length + remainder.length := by
          rw [hdec, List.length_append]
        have hlens : (s.map lowerChar).length = s.length :=
          List.length_map _ _
        have hrem0 : remainder.length = 0 := by omega
        have hremnil : remainder = [] := List.eq_nil_of_length_eq_zero hrem0
        rw [hremnil] at heq
        rw [hd] at heq
        exact heq
    · split at h
      · exact absurd h (by simp)
      · rename_i rem1 token hnw
        split at h
        · exact absurd h (by simp)
        · rename_i rem2 sp hsp
          have hg := go_some _ _ _ _ h
          have htokne := (not_whitespace_some _ _ _ hnw).2.2
          have : 0 < token.length := List.length_pos.mpr htokne
          have hstart : 0 + token.length + sp.length ≤ (0 : Nat) := hg.1
          omega
  · intro he
    have hsuf := with_suffix_intro (s.map lowerChar) [] d he (by simp)
    simp only [parse_flex_date]
    unfold parse_flex_date_go
    rw [hsuf, he]
    simp only [Option.isSome_some, Bool.true_or, if_true, Option.some.injEq,
      Parsed.mk.injEq, List.length_nil, List.length_map, true_and]
    omega

/-- Claim C3: whenever find_and_parse returns a match on an ASCII input, the
range is well-formed (start at most stop, stop at most the input length),
the matched substring is non-empty, and lowercasing the slice of the
original (non-lowercased) input at the range yields exactly a recognized
literal whose value is the returned one; concretely, on the input made of
the words before, tomorrow and after separated by single spaces, the match
is Tomorrow with range (7, 15) and the slice of the original input at that
range is the word tomorrow. -/
theorem C3_range_invariant :
    (∀ (s : List Char) (p : Parsed FlexibleDate), allASCII s →
        parse_flex_date s = some p →
        p.start ≤ p.stop ∧ p.stop ≤ s.length ∧ p.start < p.stop
        ∧ ∃ lit, (lit, p.data) ∈ literal_table
            ∧ ((s.drop p.start).take (p.stop - p.start)).map lowerChar = lit)
    ∧ (parse_flex_date (("before tomorrow after").toList)
        = some ⟨.Tomorrow, 7, 15⟩
      ∧ ((("before tomorrow after").toList.drop 7).take 8
          = ("tomorrow").toList)) := by
  constructor
  · intro s p _ h
    simp only [parse_flex_date] at h
    obtain ⟨hstart0, lit, rem, hm, hstop, hdrop, hbound⟩ := go_some _ _ _ _ h
    have hlitne := (literal_table_heads (lit, p.data) hm).1
    have hlitpos : 0 < lit.length := List.length_pos.mpr hlitne
    have hlen : (s.map lowerChar).length = s.length := List.length_map _ _
    refine ⟨by omega, by omega, by omega, lit, hm, ?_⟩
    rw [List.map_take, List.map_drop]
    have hsub : p.stop - p.start = lit.length := by omega
    rw [hsub]
    have hd : (s.map lowerChar).drop p.start = lit ++ rem := by
      simpa using hdrop
    rw [hd]
    exact List.take_left lit rem
  · exact ⟨by decide, by decide⟩

/-- Claim C3, witness: the general part instantiated at a concrete input;
find_and_parse on the two-word input (before, then tomorrow) returns a
well-formed range whose lowercased slice is a recognized literal. -/
theorem C3_witness :
    allASCII (("before tomorrow").toList)
    ∧ parse_flex_date (("before tomorrow").toList)
      = some ⟨.Tomorrow, 7, 15⟩
    ∧ ((7 : Nat) ≤ 15 ∧ (15 : Nat) ≤ 15 ∧ (7 : Nat) < 15
      ∧ ∃ lit, (lit, FlexibleDate.Tomorrow) ∈ literal_table
        ∧ (((("before tomorrow").toList).drop 7).take (15 - 7)).map lowerChar
            = lit) :=
  ⟨show ∀ c ∈ (("before tomorrow").toList), c.toNat < 128 by decide,
    by decide,
    C3_range_invariant.1 (("before tomorrow").toList) ⟨.Tomorrow, 7, 15⟩
      (show ∀ c ∈ (("before tomorrow").toList), c.toNat < 128 by decide)
      (by decide)⟩

/-- Claim C4, counterexample: the claim says that any input in which a
recognized literal occurs as a whole token, preceded and followed by
whitespace or the string boundary, yields a match.  A single leading space
before the word today is such an input (the literal is preceded by
whitespace and followed by the end of the string), yet find_and_parse
returns none, because the token-skipping loop can only skip a token that is
followed by at least one space or tab, and fails outright on input that
starts with a space; the bare word today by itself is accepted. -/
theorem C4_counterexample :
    parse_flex_date ((" today").toList) = none
    ∧ parse_flex_date (("today").toList) = some ⟨.Today, 0, 5⟩ := by
  decide

/-- Claim C4, amended: find_and_parse locates the first token-aligned
occurrence of a recognized phrase, where the token walk is the one the code
performs: the lowercased input must decompose as zero or more groups of a
nonempty token free of spaces and tabs followed by a nonempty run of spaces
and tabs, none of which starts a whole-token literal match, followed by a
suffix beginning with a recognized literal that is followed by Unicode
whitespace or the end of input.  The returned range then starts at the total
length of the skipped groups and spans exactly the matched literal.
(Compared with the original claim, the separators before the match must be
spaces or tabs, not arbitrary whitespace, and the match must not be preceded
by separator characters the walk cannot consume, such as a leading space.) -/
theorem C4_first_whole_token_match (s : List Char)
    (chunks : List (List Char × List Char)) (R rem : List Char)
    (d : FlexibleDate)
    (hs : s.map lowerChar = chunksText chunks R)
    (hchunks : ∀ p ∈ chunks, p.1 ≠ [] ∧ (∀ c ∈ p.1, spaceTab c = false)
        ∧ p.2 ≠ [] ∧ (∀ c ∈ p.2, spaceTab c = true))
    (hfirst : ∀ i < chunks.length,
        parse_flex_date_with_suffix (chunksText (chunks.drop i) R) = none)
    (hR : parse_flex_date_with_suffix R = some (rem, d)) :
    parse_flex_date s
      = some ⟨d, skipLen chunks, skipLen chunks + (R.length - rem.length)⟩ := by
  simp only [parse_flex_date, hs]
  have hg := go_chunks chunks ((chunksText chunks R).length + 1) 0 R rem d
    (by omega) hchunks hfirst hR
  rw [hg]
  simp

/-- Claim C4, witness: the amended theorem applied to the concrete input
made of the words go, home, fri and okay: the scanner skips two groups and
finds the weekday literal fri at offset 8, range (8, 11), matching the unit
test in src/parser.rs. -/
theorem C4_witness :
    parse_flex_date (("go home fri okay").toList)
      = some ⟨.Weekday .Friday, 8, 11⟩ :=
  C4_first_whole_token_match (("go home fri okay").toList)
    [((("go").toList), ((" ").toList)), ((("home").toList), ((" ").toList))]
    (("fri okay").toList) ((" okay").toList) (.Weekday .Friday)
    (by decide) (by decide) (by decide) (by decide)

/-- Claim C5: no-match is always signalled as an absent result: on the empty
input, on input consisting only of whitespace characters, on the five-word
near-miss input from the unit tests, and on the word today followed
immediately by an exclamation mark, find_and_parse returns none; a
recognized literal at the very end of the string with no trailing
whitespace (the word tomorrow after the word before) is still accepted. -/
theorem C5_no_match_is_none :
    parse_flex_date ([] : List Char) = none
    ∧ (∀ s : List Char, (∀ c ∈ s, isRustWhitespace c = true) →
        parse_flex_date s = none)
    ∧ parse_flex_date (("todd tomm tday tomrow todayyy").toList) = none
    ∧ parse_flex_date (("today!").toList) = none
    ∧ parse_flex_date (("before tomorrow").toList)
        = some ⟨.Tomorrow, 7, 15⟩ := by
  refine ⟨by decide, ?_, by decide, by decide, by decide⟩
  intro s hws
  simp only [parse_flex_date]
  apply go_all_ws
  intro c hc
  obtain ⟨c0, hc0, rfl⟩ := List.mem_map.mp hc
  rw [lowerChar_of_whitespace c0 (hws c0 hc0)]
  exact hws c0 hc0

/-- Claim C6: every recognized literal, parsed on its own, yields a match
spanning the whole input with the corresponding value: the two spellings of
Today, the three of Tomorrow, and the long and short names of the seven
weekdays. -/
theorem C6_literals_recognized :
    parse_flex_date (("today").toList) = some ⟨.Today, 0, 5⟩
    ∧ parse_flex_date (("tod").toList) = some ⟨.Today, 0, 3⟩
    ∧ parse_flex_date (("tomorrow").toList) = some ⟨.Tomorrow, 0, 8⟩
    ∧ parse_flex_date (("tom").toList) = some ⟨.Tomorrow, 0, 3⟩
    ∧ parse_flex_date (("tmrw").toList) = some ⟨.Tomorrow, 0, 4⟩
    ∧ parse_flex_date (("sunday").toList) = some ⟨.Weekday .Sunday, 0, 6⟩
    ∧ parse_flex_date (("sun").toList) = some ⟨.Weekday .Sunday, 0, 3⟩
    ∧ parse_flex_date (("monday").toList) = some ⟨.Weekday .Monday, 0, 6⟩
    ∧ parse_flex_date (("mon").toList) = some ⟨.Weekday .Monday, 0, 3⟩
    ∧ parse_flex_date (("tuesday").toList) = some ⟨.Weekday .Tuesday, 0, 7⟩
    ∧ parse_flex_date (("tue").toList) = some ⟨.Weekday .Tuesday, 0, 3⟩
    ∧ parse_flex_date (("wednesday").toList)
        = some ⟨.Weekday .Wednesday, 0, 9⟩
    ∧ parse_flex_date (("wed").toList) = some ⟨.Weekday .Wednesday, 0, 3⟩
    ∧ parse_flex_date (("thursday").toList) = some ⟨.Weekday .Thursday, 0, 8⟩
    ∧ parse_flex_date (("thurs").toList) = some ⟨.Weekday .Thursday, 0, 5⟩
    ∧ parse_flex_date (("friday").toList) = some ⟨.Weekday .Friday, 0, 6⟩
    ∧ parse_flex_date (("fri").toList) = some ⟨.Weekday .Friday, 0, 3⟩
    ∧ parse_flex_date (("saturday").toList) = some ⟨.Weekday .Saturday, 0, 8⟩
    ∧ parse_flex_date (("sat").toList) = some ⟨.Weekday .Saturday, 0, 3⟩ := by
  decide

/-- Claim C7: find_and_parse is case-insensitive; for every ASCII input the
result (value and byte range) equals the result on the lowercased input,
because the scanner lowercases once up front and ASCII lowercasing is
idempotent and length-preserving. -/
theorem C7_case_insensitive (s : List Char) (_h : allASCII s) :
    parse_flex_date s = parse_flex_date (s.map lowerChar) := by
  simp only [parse_flex_date]
  rw [map_lowerChar_idem]

/-- Claim C7, witness: the theorem applied to the all-uppercase spelling of
the word today. -/
theorem C7_witness :
    parse_flex_date (("TODAY").toList)
      = parse_flex_date ((("TODAY").toList).map lowerChar) :=
  C7_case_insensitive (("TODAY").toList)
    (show ∀ c ∈ (("TODAY").toList), c.toNat < 128 by decide)

/-- Claim C8: days_until equals the cyclic ordinal difference modulo 7 under
the fixed ordinals (Monday 0 through Sunday 6), is always at most 6, is zero
on the diagonal, and the unsigned subtractions the code performs never
underflow: in the branch taken, the subtrahend never exceeds the minuend. -/
theorem C8_days_until_mod (a b : Weekday) :
    (Weekday.days_until a b : Int)
      = ((Weekday.week_index b : Int) - (Weekday.week_index a : Int)) % 7
    ∧ Weekday.days_until a b ≤ 6
    ∧ Weekday.days_until a a = 0
    ∧ (if Weekday.week_index b ≥ Weekday.week_index a
        then Weekday.week_index a ≤ Weekday.week_index b
        else Weekday.week_index a ≤ 7 + Weekday.week_index b) := by
  cases a <;> cases b <;> decide

/-- Claim C9: the resolver returns the reference date unchanged for Today,
the next day for Tomorrow, and the date advanced by the weekday distance for
a weekday (in particular the same date when the reference already falls on
that weekday); concretely, with reference date 2023-10-08, a Sunday, the
variants resolve to 2023-10-08, 2023-10-09 and (for Wednesday) 2023-10-11.
Dates are modelled as proleptic-Gregorian day numbers (the external
chrono collaborator). -/
theorem C9_resolver :
    (∀ t : Int, into_naive_date .Today t = t)
    ∧ (∀ t : Int, into_naive_date .Tomorrow t = t + 1)
    ∧ (∀ (t : Int) (w : Weekday), into_naive_date (.Weekday w) t
        = t + (Weekday.days_until (weekdayOfDay t) w : Int))
    ∧ (∀ (t : Int) (w : Weekday), weekdayOfDay t = w →
        into_naive_date (.Weekday w) t = t)
    ∧ weekdayOfDay (civilToDays 2023 10 8) = .Sunday
    ∧ into_naive_date .Today (civilToDays 2023 10 8) = civilToDays 2023 10 8
    ∧ into_naive_date .Tomorrow (civilToDays 2023 10 8)
        = civilToDays 2023 10 9
    ∧ into_naive_date (.Weekday .Wednesday) (civilToDays 2023 10 8)
        = civilToDays 2023 10 11 := by
  refine ⟨fun t => rfl, fun t => rfl, fun t w => rfl, ?_, by decide, rfl,
    by decide, by decide⟩
  intro t w h
  show t + (Weekday.days_until (weekdayOfDay t) w : Int) = t
  rw [h, days_until_self]
  simp

/-- Claim C10: the scanner uses two different whitespace notions: the
boundary check after a matched literal accepts any Unicode whitespace
character (including the newline), while the token-skipping step splits only
on spaces and tabs; hence the word today followed by a newline and a letter
is matched with range (0, 5), while a letter, a newline and the word today
yield no match (the whole input is consumed as one token that is not
followed by a space or tab). -/
theorem C10_two_whitespace_notions :
    parse_flex_date (("today\nx").toList) = some ⟨.Today, 0, 5⟩
    ∧ parse_flex_date (("x\ntoday").toList) = none
    ∧ isRustWhitespace '\n' = true
    ∧ spaceTab '\n' = false := by
  decide

end SmartDate
